import Mathlib

/-!
Verification of the OQMD train/test split notebook
(`chemical-interpolation/create-training-sets.ipynb`).

The development shallowly embeds the notebook's dataframe pipeline:
numeric coercion of the raw cells, the formation-enthalpy range filter,
composition parsing, lowest-energy deduplication per reduced formula,
system labels, the quaternary and pairwise hold-out filters, the
index-difference train sets, and the two-column "magpie" exporter.
Numeric columns are modelled as exact rationals; text is modelled as
character lists wrapped in `String`.
-/

namespace OqmdSplit

/-! ### Digits and numerals -/

/-- The decimal digit characters. -/
def digitChar : Nat → Char
  | 0 => '0' | 1 => '1' | 2 => '2' | 3 => '3' | 4 => '4'
  | 5 => '5' | 6 => '6' | 7 => '7' | 8 => '8' | _ => '9'

/-- Numeric value of a decimal digit character. -/
def charDigit (c : Char) : Nat := c.toNat - 48

/-- Big-endian decimal value of a digit string. -/
def charsToNat (l : List Char) : Nat :=
  l.foldl (fun acc c => 10 * acc + charDigit c) 0

/-- Little-endian digit characters of a positive number, structurally
recursive on a fuel bound (`n / 10 < n`, so fuel `n` never runs out). -/
def natCharsF : Nat → Nat → List Char
  | _, 0 => []
  | 0, _ + 1 => []
  | f + 1, n + 1 => digitChar ((n + 1) % 10) :: natCharsF f ((n + 1) / 10)

/-- Decimal rendering of a natural number. -/
def natChars (n : Nat) : List Char :=
  if n = 0 then ['0'] else (natCharsF n n).reverse

theorem charDigit_digitChar {d : Nat} (h : d < 10) : charDigit (digitChar d) = d := by
  interval_cases d <;> rfl

theorem digitChar_isDigit {d : Nat} (h : d < 10) : (digitChar d).isDigit = true := by
  interval_cases d <;> rfl

theorem charsToNat_eq_ofDigits (ds : List Nat) (h : ∀ d ∈ ds, d < 10) :
    charsToNat ((ds.map digitChar).reverse) = Nat.ofDigits 10 ds := by
  unfold charsToNat
  rw [List.foldl_reverse]
  induction ds with
  | nil => simp [Nat.ofDigits]
  | cons d ds ih =>
    simp only [List.map_cons, List.foldr_cons, Nat.ofDigits_cons]
    rw [ih (fun x hx => h x (List.mem_cons_of_mem _ hx)),
      charDigit_digitChar (h d (List.mem_cons_self _ _))]
    ring

theorem natCharsF_eq_digits :
    ∀ (f n : Nat), n ≤ f → natCharsF f n = (Nat.digits 10 n).map digitChar := by
  intro f
  induction f with
  | zero =>
    intro n hn
    rw [Nat.le_zero] at hn
    subst hn
    simp [natCharsF]
  | succ f ih =>
    intro n hn
    cases n with
    | zero => simp [natCharsF]
    | succ m =>
      rw [Nat.digits_def' (by norm_num : (1 : Nat) < 10) (Nat.succ_pos m)]
      simp only [natCharsF, List.map_cons]
      rw [ih ((m + 1) / 10) (by
        have := Nat.div_lt_self (Nat.succ_pos m) (by norm_num : (1 : Nat) < 10)
        omega)]

theorem natChars_eq (n : Nat) :
    natChars n = if n = 0 then ['0'] else ((Nat.digits 10 n).map digitChar).reverse := by
  unfold natChars
  by_cases h : n = 0
  · simp [h]
  · rw [if_neg h, if_neg h, natCharsF_eq_digits n n le_rfl]

theorem charsToNat_natChars (n : Nat) : charsToNat (natChars n) = n := by
  rw [natChars_eq]
  by_cases h : n = 0
  · subst h; rfl
  · rw [if_neg h, charsToNat_eq_ofDigits _ (fun d hd => Nat.digits_lt_base (by norm_num) hd),
      Nat.ofDigits_digits]

theorem natChars_ne_nil (n : Nat) : natChars n ≠ [] := by
  rw [natChars_eq]
  by_cases h : n = 0
  · simp [h]
  · rw [if_neg h]
    intro hc
    have hd : Nat.digits 10 n ≠ [] := (Nat.digits_ne_nil_iff_ne_zero (b := 10)).mpr h
    simp only [List.reverse_eq_nil_iff, List.map_eq_nil_iff] at hc
    exact hd hc

theorem natChars_isDigit (n : Nat) : ∀ c ∈ natChars n, c.isDigit = true := by
  intro c hc
  rw [natChars_eq] at hc
  by_cases h : n = 0
  · rw [if_pos h] at hc
    simp only [List.mem_singleton] at hc
    subst hc; rfl
  · rw [if_neg h, List.mem_reverse, List.mem_map] at hc
    obtain ⟨d, hd, rfl⟩ := hc
    exact digitChar_isDigit (Nat.digits_lt_base (by norm_num) hd)

theorem not_digit_dash : ('-').isDigit = false := rfl

theorem not_digit_slash : ('/').isDigit = false := rfl

theorem not_digit_space : (' ').isDigit = false := rfl

theorem not_digit_newline : ('\n').isDigit = false := rfl

/-! ### Splitting and joining character lists -/

/-- Split a character list at every occurrence of `sep` (like Python's
`str.split(sep)`): always returns at least one (possibly empty) chunk. -/
def splitCh (sep : Char) : List Char → List (List Char)
  | [] => [[]]
  | c :: cs =>
    match splitCh sep cs with
    | [] => [[]]
    | t :: ts => if c = sep then [] :: t :: ts else (c :: t) :: ts

/-- Join character-list chunks with a separator character. -/
def joinSep (sep : Char) : List (List Char) → List Char
  | [] => []
  | [x] => x
  | x :: y :: ys => x ++ sep :: joinSep sep (y :: ys)

theorem splitCh_ne_nil (sep : Char) (l : List Char) : splitCh sep l ≠ [] := by
  cases l with
  | nil => simp [splitCh]
  | cons c cs =>
    unfold splitCh
    cases splitCh sep cs with
    | nil => simp
    | cons t ts =>
      by_cases h : c = sep <;> simp [h]

theorem splitCh_no_sep {sep : Char} {l : List Char} (h : sep ∉ l) :
    splitCh sep l = [l] := by
  induction l with
  | nil => rfl
  | cons c cs ih =>
    unfold splitCh
    rw [ih (fun hm => h (List.mem_cons_of_mem _ hm))]
    have hc : ¬ c = sep := fun he => h (he ▸ List.mem_cons_self _ _)
    simp [hc]

theorem splitCh_cons (sep c : Char) (cs : List Char) :
    splitCh sep (c :: cs) =
      match splitCh sep cs with
      | [] => [[]]
      | t :: ts => if c = sep then [] :: t :: ts else (c :: t) :: ts := rfl

theorem splitCh_append_sep {sep : Char} {xs : List Char} (ys : List Char)
    (h : sep ∉ xs) : splitCh sep (xs ++ sep :: ys) = xs :: splitCh sep ys := by
  induction xs with
  | nil =>
    simp only [List.nil_append]
    rw [splitCh_cons]
    cases hs : splitCh sep ys with
    | nil => exact absurd hs (splitCh_ne_nil sep ys)
    | cons t ts => simp
  | cons c cs ih =>
    have hc : ¬ c = sep := fun he => h (he ▸ List.mem_cons_self _ _)
    have hcs : sep ∉ cs := fun hm => h (List.mem_cons_of_mem _ hm)
    simp only [List.cons_append]
    rw [splitCh_cons, ih hcs]
    simp [hc]

theorem splitCh_joinSep {sep : Char} {ls : List (List Char)}
    (h : ∀ x ∈ ls, sep ∉ x) (hne : ls ≠ []) :
    splitCh sep (joinSep sep ls) = ls := by
  induction ls with
  | nil => exact absurd rfl hne
  | cons x rest ih =>
    cases rest with
    | nil =>
      exact splitCh_no_sep (h x (List.mem_cons_self _ _))
    | cons y ys =>
      unfold joinSep
      rw [splitCh_append_sep _ (h x (List.mem_cons_self _ _)),
        ih (fun z hz => h z (List.mem_cons_of_mem _ hz)) (by simp)]

/-- Chunks produced by `joinSep` from nonempty separator-free chunks are
recovered uniquely: `joinSep` is injective there. -/
theorem joinSep_injective {sep : Char} {l₁ l₂ : List (List Char)}
    (h₁ : ∀ x ∈ l₁, sep ∉ x) (h₂ : ∀ x ∈ l₂, sep ∉ x)
    (hn₁ : ∀ x ∈ l₁, x ≠ []) (hn₂ : ∀ x ∈ l₂, x ≠ [])
    (he : joinSep sep l₁ = joinSep sep l₂) : l₁ = l₂ := by
  rcases l₁ with _ | ⟨x, xs⟩
  · rcases l₂ with _ | ⟨y, ys⟩
    · rfl
    · exfalso
      rcases ys with _ | ⟨z, zs⟩
      · exact hn₂ y (List.mem_cons_self _ _) (by simp only [joinSep] at he; exact he.symm)
      · have : ([] : List Char) = y ++ sep :: joinSep sep (z :: zs) := by
          simp only [joinSep] at he; exact he
        exact List.cons_ne_nil _ _ (List.append_eq_nil.mp this.symm).2
  · rcases l₂ with _ | ⟨y, ys⟩
    · exfalso
      rcases xs with _ | ⟨z, zs⟩
      · exact hn₁ x (List.mem_cons_self _ _) (by simp only [joinSep] at he; exact he)
      · have : x ++ sep :: joinSep sep (z :: zs) = ([] : List Char) := by
          simp only [joinSep] at he; exact he
        exact List.cons_ne_nil _ _ (List.append_eq_nil.mp this).2
    · have := congrArg (splitCh sep) he
      rwa [splitCh_joinSep h₁ (by simp), splitCh_joinSep h₂ (by simp)] at this

/-! ### Exact rational numerals

The notebook's numeric cells are floating point; the embedding models them
as exact rationals with an injective plain-text rendering (integers print
without a denominator, other rationals as `num/den`). -/

/-- Render an integer in decimal. -/
def intChars (i : Int) : List Char :=
  (if i < 0 then ['-'] else []) ++ natChars i.natAbs

/-- Render a rational exactly. -/
def ratChars (q : Rat) : List Char :=
  intChars q.num ++ (if q.den = 1 then [] else '/' :: natChars q.den)

/-- Parse a decimal natural number. -/
def parseNatCh (l : List Char) : Option Nat :=
  if l ≠ [] ∧ l.all Char.isDigit then some (charsToNat l) else none

/-- Parse a decimal integer (optional leading minus sign). -/
def parseIntCh (l : List Char) : Option Int :=
  match l with
  | [] => none
  | c :: r =>
    if c = '-' then (parseNatCh r).map (fun n => -(n : Int))
    else (parseNatCh (c :: r)).map (fun n => (n : Int))

/-- Assemble a rational from the chunks between `/` separators. -/
def parseRatParts : List (List Char) → Option Rat
  | [np] => (parseIntCh np).map (fun i => (i : Rat))
  | [np, dp] =>
    match parseIntCh np, parseNatCh dp with
    | some i, some d => if d = 0 then none else some ((i : Rat) / (d : Rat))
    | _, _ => none
  | _ => none

/-- Parse a rational rendered by `ratChars`. -/
def parseRatCh (l : List Char) : Option Rat :=
  parseRatParts (splitCh '/' l)

theorem parseNatCh_natChars (n : Nat) : parseNatCh (natChars n) = some n := by
  unfold parseNatCh
  rw [if_pos ⟨natChars_ne_nil n, List.all_eq_true.mpr (natChars_isDigit n)⟩,
    charsToNat_natChars]

theorem mem_intChars {i : Int} {c : Char} (h : c ∈ intChars i) :
    c.isDigit = true ∨ c = '-' := by
  unfold intChars at h
  rcases List.mem_append.mp h with h | h
  · by_cases hi : i < 0
    · rw [if_pos hi] at h
      simp only [List.mem_singleton] at h
      exact Or.inr h
    · rw [if_neg hi] at h
      exact absurd h (List.not_mem_nil c)
  · exact Or.inl (natChars_isDigit _ c h)

theorem mem_ratChars {q : Rat} {c : Char} (h : c ∈ ratChars q) :
    c.isDigit = true ∨ c = '-' ∨ c = '/' := by
  unfold ratChars at h
  rcases List.mem_append.mp h with h | h
  · rcases mem_intChars h with h | h
    · exact Or.inl h
    · exact Or.inr (Or.inl h)
  · by_cases hd : q.den = 1
    · rw [if_pos hd] at h
      exact absurd h (List.not_mem_nil c)
    · rw [if_neg hd] at h
      rcases List.mem_cons.mp h with h | h
      · exact Or.inr (Or.inr h)
      · exact Or.inl (natChars_isDigit _ c h)

theorem slash_not_mem_intChars (i : Int) : '/' ∉ intChars i := by
  intro h
  rcases mem_intChars h with h | h
  · exact absurd h (by rw [not_digit_slash]; simp)
  · exact absurd h (by decide)

theorem parseIntCh_intChars (i : Int) : parseIntCh (intChars i) = some i := by
  by_cases hi : i < 0
  · have hrep : intChars i = '-' :: natChars i.natAbs := by
      unfold intChars; rw [if_pos hi]; rfl
    rw [hrep]
    simp only [parseIntCh, if_pos rfl, parseNatCh_natChars]
    simp [abs_of_neg hi]
  · have hne : intChars i = natChars i.natAbs := by
      unfold intChars; rw [if_neg hi]; rfl
    rw [hne]
    cases hd : natChars i.natAbs with
    | nil => exact absurd hd (natChars_ne_nil _)
    | cons c r =>
      have hcdig : c.isDigit = true := natChars_isDigit _ c (hd ▸ List.mem_cons_self _ _)
      have hcne : ¬ c = '-' := by
        intro he; rw [he] at hcdig; exact absurd hcdig (by rw [not_digit_dash]; simp)
      simp only [parseIntCh, if_neg hcne, ← hd, parseNatCh_natChars]
      have hn : ((i.natAbs : Int)) = i := by omega
      simp [hn]

theorem parseRatCh_ratChars (q : Rat) : parseRatCh (ratChars q) = some q := by
  unfold parseRatCh ratChars
  by_cases hd : q.den = 1
  · rw [if_pos hd, List.append_nil, splitCh_no_sep (slash_not_mem_intChars q.num)]
    simp only [parseRatParts, parseIntCh_intChars]
    have hq : ((q.num : Rat)) = q := by
      have h := Rat.num_div_den q
      rw [hd] at h
      simpa using h
    simp [hq]
  · rw [if_neg hd,
      splitCh_append_sep _ (slash_not_mem_intChars q.num),
      splitCh_no_sep (fun hm => by
        have hdig := natChars_isDigit q.den _ hm
        rw [not_digit_slash] at hdig
        simp at hdig)]
    simp only [parseRatParts, parseIntCh_intChars, parseNatCh_natChars]
    have hdz : ¬ q.den = 0 := Nat.pos_iff_ne_zero.mp q.pos
    simp only [hdz, if_false]
    rw [Rat.num_div_den]

/-! ### Composition parsing

Models the external composition parser (pymatgen's `Composition`, an
external collaborator of the notebook) through the grammar the spec
records: an element symbol (an uppercase letter followed by lowercase
letters) optionally followed by an integer or decimal count; repeated
symbols accumulate; anything else is a fatal parse error for that
composition string. -/

/-- Length of the rest after `dropWhile`. -/
theorem length_dropWhile_le (p : Char → Bool) (l : List Char) :
    (l.dropWhile p).length ≤ l.length :=
  (List.dropWhile_suffix p).sublist.length_le

/-- Parse an optional stoichiometric count (integer or decimal); returns
the count (default 1) and the unconsumed rest. -/
def parseCount (l : List Char) : Rat × List Char :=
  let ds := l.takeWhile Char.isDigit
  let r := l.dropWhile Char.isDigit
  if ds = [] then (1, l)
  else
    match r with
    | '.' :: r2 =>
      let fs := r2.takeWhile Char.isDigit
      if fs = [] then ((charsToNat ds : Rat), r)
      else ((charsToNat ds : Rat) + (charsToNat fs : Rat) / ((10 : Rat) ^ fs.length),
        r2.dropWhile Char.isDigit)
    | _ => ((charsToNat ds : Rat), r)

theorem parseCount_snd_le (l : List Char) : (parseCount l).2.length ≤ l.length := by
  have hr := length_dropWhile_le Char.isDigit l
  simp only [parseCount]
  by_cases hds : l.takeWhile Char.isDigit = []
  · simp [hds]
  · rw [if_neg hds]
    split
    next r2 heq =>
      by_cases hfs : r2.takeWhile Char.isDigit = []
      · rw [if_pos hfs]
        exact hr
      · rw [if_neg hfs]
        have h2 := length_dropWhile_le Char.isLower r2
        have h2d := length_dropWhile_le Char.isDigit r2
        have hlen : r2.length + 1 = (l.dropWhile Char.isDigit).length := by
          rw [heq]; rfl
        simp only []
        omega
    next heq => exact hr

/-- Tokenizer loop, structurally recursive on a fuel bound. Each token
consumes at least the leading uppercase character, so fuel equal to the
input length never runs out. -/
def parseTokensF : Nat → List Char → Option (List (String × Rat))
  | _, [] => some []
  | 0, _ :: _ => none
  | fuel + 1, c :: rest =>
    if c.isUpper then
      let lows := rest.takeWhile Char.isLower
      let r1 := rest.dropWhile Char.isLower
      match parseTokensF fuel (parseCount r1).2 with
      | some ts => some ((String.mk (c :: lows), (parseCount r1).1) :: ts)
      | none => none
    else none

/-- Tokenize a formula string into (symbol, count) pairs in appearance
order; `none` on any malformed input (the fatal-error mode). -/
def parseTokens (l : List Char) : Option (List (String × Rat)) :=
  parseTokensF l.length l

/-- A well-formed element symbol: nonempty, all letters. -/
def symOK (s : String) : Prop :=
  s.data ≠ [] ∧ ∀ c ∈ s.data, c.isAlpha = true

instance symOK_decidable (s : String) : Decidable (symOK s) := by
  unfold symOK; exact inferInstance

theorem parseTokensF_symOK :
    ∀ (fuel : Nat) (l : List Char) (ts : List (String × Rat)),
      parseTokensF fuel l = some ts → ∀ p ∈ ts, symOK p.1 := by
  intro fuel
  induction fuel with
  | zero =>
    intro l ts hts p hp
    cases l with
    | nil =>
      simp only [parseTokensF, Option.some_inj] at hts
      subst hts
      exact absurd hp (List.not_mem_nil p)
    | cons c rest => simp [parseTokensF] at hts
  | succ n ih =>
    intro l ts hts p hp
    cases l with
    | nil =>
      simp only [parseTokensF, Option.some_inj] at hts
      subst hts
      exact absurd hp (List.not_mem_nil p)
    | cons c rest =>
      simp only [parseTokensF] at hts
      by_cases hc : c.isUpper
      · rw [if_pos hc] at hts
        cases hrec : parseTokensF n (parseCount (rest.dropWhile Char.isLower)).2 with
        | none => rw [hrec] at hts; exact absurd hts (by simp)
        | some ts0 =>
          rw [hrec] at hts
          simp only [Option.some_inj] at hts
          subst hts
          rcases List.mem_cons.mp hp with hp | hp
          · subst hp
            refine ⟨by simp, ?_⟩
            intro x hx
            rcases List.mem_cons.mp hx with hx | hx
            · subst hx
              simp [Char.isAlpha, hc]
            · have hlow := List.mem_takeWhile_imp hx
              simp [Char.isAlpha, hlow]
          · exact ih _ ts0 hrec p hp
      · rw [if_neg hc] at hts
        exact absurd hts (by simp)

theorem parseTokens_symOK (l : List Char) (ts : List (String × Rat))
    (hts : parseTokens l = some ts) : ∀ p ∈ ts, symOK p.1 :=
  parseTokensF_symOK l.length l ts hts

/-- Accumulate a (symbol, count) pair into an element→count structure:
an existing symbol's count grows, a new symbol is appended. -/
def addCount (sym : String) (q : Rat) : List (String × Rat) → List (String × Rat)
  | [] => [(sym, q)]
  | (s, c) :: t => if s = sym then (s, c + q) :: t else (s, c) :: addCount sym q t

/-- Element→count structure of a token list (repeated symbols accumulate). -/
def accumTokens (ts : List (String × Rat)) : List (String × Rat) :=
  ts.foldl (fun acc sq => addCount sq.1 sq.2 acc) []

/-- Model of `Composition(x)` (notebook cell 9): parse a formula string
into an element→count structure; a string without a valid leading element
token is a fatal error, as is an empty composition. -/
def parseComp (s : String) : Option (List (String × Rat)) :=
  match parseTokens s.data with
  | some [] => none
  | some ts => some (accumTokens ts)
  | none => none

theorem keys_addCount (sym : String) (q : Rat) (l : List (String × Rat)) :
    (addCount sym q l).map Prod.fst =
      if sym ∈ l.map Prod.fst then l.map Prod.fst else l.map Prod.fst ++ [sym] := by
  induction l with
  | nil => simp [addCount]
  | cons p t ih =>
    obtain ⟨s, c⟩ := p
    by_cases hs : s = sym
    · subst hs
      simp [addCount]
    · have hne : ¬ sym = s := fun he => hs he.symm
      simp only [addCount, if_neg hs, List.map_cons]
      rw [ih]
      by_cases hm : sym ∈ t.map Prod.fst
      · simp [hm, hne]
      · simp [hm, hne]

theorem addCount_ne_nil (sym : String) (q : Rat) (l : List (String × Rat)) :
    addCount sym q l ≠ [] := by
  cases l with
  | nil => simp [addCount]
  | cons p t =>
    obtain ⟨s, c⟩ := p
    by_cases hs : s = sym <;> simp [addCount, hs]

theorem nodup_keys_addCount {sym : String} {q : Rat} {l : List (String × Rat)}
    (h : (l.map Prod.fst).Nodup) : ((addCount sym q l).map Prod.fst).Nodup := by
  rw [keys_addCount]
  by_cases hm : sym ∈ l.map Prod.fst
  · rwa [if_pos hm]
  · rw [if_neg hm]
    simp [List.nodup_append, h, hm]

theorem mem_keys_addCount {x sym : String} {q : Rat} {l : List (String × Rat)} :
    x ∈ (addCount sym q l).map Prod.fst ↔ x ∈ l.map Prod.fst ∨ x = sym := by
  rw [keys_addCount]
  by_cases hm : sym ∈ l.map Prod.fst
  · rw [if_pos hm]
    exact ⟨Or.inl, fun h => h.elim id (fun he => he ▸ hm)⟩
  · rw [if_neg hm]
    simp

theorem foldl_addCount_nodup (ts : List (String × Rat)) :
    ∀ acc : List (String × Rat), (acc.map Prod.fst).Nodup →
      ((ts.foldl (fun a sq => addCount sq.1 sq.2 a) acc).map Prod.fst).Nodup := by
  induction ts with
  | nil => intro acc h; exact h
  | cons t ts ih =>
    intro acc h
    simp only [List.foldl_cons]
    exact ih _ (nodup_keys_addCount h)

theorem foldl_addCount_mem (ts : List (String × Rat)) :
    ∀ (acc : List (String × Rat)) (x : String),
      (x ∈ (ts.foldl (fun a sq => addCount sq.1 sq.2 a) acc).map Prod.fst ↔
        x ∈ acc.map Prod.fst ∨ x ∈ ts.map Prod.fst) := by
  induction ts with
  | nil => intro acc x; simp
  | cons t ts ih =>
    intro acc x
    simp only [List.foldl_cons, List.map_cons, List.mem_cons]
    rw [ih, mem_keys_addCount]
    tauto

theorem foldl_addCount_ne_nil (ts : List (String × Rat)) :
    ∀ acc : List (String × Rat), acc ≠ [] ∨ ts ≠ [] →
      ts.foldl (fun a sq => addCount sq.1 sq.2 a) acc ≠ [] := by
  induction ts with
  | nil =>
    intro acc h
    exact h.elim id (fun hn => absurd rfl hn)
  | cons t ts ih =>
    intro acc _
    simp only [List.foldl_cons]
    exact ih _ (Or.inl (addCount_ne_nil _ _ _))

/-- Structural facts about any successfully parsed composition: it is
nonempty, its element symbols are distinct, and each symbol is a
nonempty all-letter string. -/
theorem parseComp_props {s : String} {c : List (String × Rat)}
    (h : parseComp s = some c) :
    c ≠ [] ∧ (c.map Prod.fst).Nodup ∧ ∀ sym ∈ c.map Prod.fst, symOK sym := by
  cases hts : parseTokens s.data with
  | none => simp [parseComp, hts] at h
  | some ts =>
    cases ts with
    | nil => simp [parseComp, hts] at h
    | cons a tl =>
      simp only [parseComp, hts] at h
      have hc : accumTokens (a :: tl) = c := Option.some_inj.mp h
      subst hc
      refine ⟨foldl_addCount_ne_nil _ _ (Or.inr (by simp)), foldl_addCount_nodup _ _ (by simp), ?_⟩
      intro sym hsym
      rw [accumTokens, foldl_addCount_mem] at hsym
      rcases hsym with hsym | hsym
      · simp at hsym
      · obtain ⟨p, hp, hps⟩ := List.mem_map.mp hsym
        exact hps ▸ parseTokens_symOK s.data (a :: tl) hts p hp

/-! ### Lexicographic string order (Python's `sorted` on `str`) -/

/-- Lexicographic comparison of character lists by code point, the order
Python's `sorted` uses on strings. -/
def leChars : List Char → List Char → Bool
  | [], _ => true
  | _ :: _, [] => false
  | a :: as, b :: bs => if a < b then true else if b < a then false else leChars as bs

/-- Lexicographic order on strings. -/
def strLe (a b : String) : Prop := leChars a.data b.data = true

instance strLe_decidable : DecidableRel strLe := fun a b =>
  inferInstanceAs (Decidable (leChars a.data b.data = true))

theorem leChars_total (a : List Char) : ∀ b, leChars a b = true ∨ leChars b a = true := by
  induction a with
  | nil => intro b; exact Or.inl rfl
  | cons x xs ih =>
    intro b
    cases b with
    | nil => exact Or.inr rfl
    | cons y ys =>
      by_cases hxy : x < y
      · exact Or.inl (by simp [leChars, hxy])
      · by_cases hyx : y < x
        · exact Or.inr (by simp [leChars, hyx, lt_asymm hyx])
        · rcases ih ys with h | h
          · exact Or.inl (by simp [leChars, hxy, hyx, h])
          · exact Or.inr (by simp [leChars, hxy, hyx, h])

theorem leChars_cons_iff {x y : Char} {xs ys : List Char} :
    leChars (x :: xs) (y :: ys) = true ↔
      x < y ∨ (¬ x < y ∧ ¬ y < x ∧ leChars xs ys = true) := by
  by_cases hxy : x < y
  · simp [leChars, hxy]
  · by_cases hyx : y < x
    · simp [leChars, hxy, hyx]
    · simp [leChars, hxy, hyx]

theorem leChars_trans :
    ∀ {a b c : List Char}, leChars a b = true → leChars b c = true → leChars a c = true := by
  intro a
  induction a with
  | nil => intro b c _ _; rfl
  | cons x xs ih =>
    intro b c hab hbc
    cases b with
    | nil => simp [leChars] at hab
    | cons y ys =>
      cases c with
      | nil => simp [leChars] at hbc
      | cons z zs =>
        rw [leChars_cons_iff] at hab hbc ⊢
        rcases hab with hxy | ⟨hnxy, hnyx, hxsys⟩
        · rcases hbc with hyz | ⟨hnyz, hnzy, _⟩
          · exact Or.inl (lt_trans hxy hyz)
          · have hyz : y = z := le_antisymm (not_lt.mp hnzy) (not_lt.mp hnyz)
            exact Or.inl (hyz ▸ hxy)
        · have hxy : x = y := le_antisymm (not_lt.mp hnyx) (not_lt.mp hnxy)
          subst hxy
          rcases hbc with hxz | ⟨hnxz, hnzx, hyszs⟩
          · exact Or.inl hxz
          · exact Or.inr ⟨hnxz, hnzx, ih hxsys hyszs⟩

theorem leChars_antisymm :
    ∀ {a b : List Char}, leChars a b = true → leChars b a = true → a = b := by
  intro a
  induction a with
  | nil =>
    intro b hab hba
    cases b with
    | nil => rfl
    | cons y ys => simp [leChars] at hba
  | cons x xs ih =>
    intro b hab hba
    cases b with
    | nil => simp [leChars] at hab
    | cons y ys =>
      rw [leChars_cons_iff] at hab hba
      rcases hab with hxy | ⟨hnxy, hnyx, hxsys⟩
      · rcases hba with hyx | ⟨_, hnxy2, _⟩
        · exact absurd hyx (lt_asymm hxy)
        · exact absurd hxy hnxy2
      · rcases hba with hyx | ⟨_, _, hysxs⟩
        · exact absurd hyx hnyx
        · rw [ih hxsys hysxs]
          rw [le_antisymm (not_lt.mp hnyx) (not_lt.mp hnxy)]

instance strLe_total : IsTotal String strLe :=
  ⟨fun a b => leChars_total a.data b.data⟩

instance strLe_trans : IsTrans String strLe :=
  ⟨fun _ _ _ hab hbc => leChars_trans hab hbc⟩

instance strLe_antisymm : IsAntisymm String strLe :=
  ⟨fun a b hab hba => by
    cases a with
    | mk da =>
      cases b with
      | mk db => exact congrArg String.mk (leChars_antisymm hab hba)⟩

instance strLe_refl : IsRefl String strLe :=
  ⟨fun a => (leChars_total a.data a.data).elim id id⟩

/-! ### The dataset and the cleaning pipeline -/

/-- One raw row of `oqmd_all.data`: the composition cell and the six
numeric cells, all as text (whitespace-delimited input file, cell 3).
`idx` is the row identity assigned by the loader. -/
structure RawRow where
  idx : Nat
  comp : String
  energy_pa : String
  volume_pa : String
  magmom_pa : String
  bandgap : String
  delta_e : String
  stability : String
deriving DecidableEq

/-- Parse an unsigned decimal numeral (`123` or `123.456`). -/
def parseUnsignedDec (l : List Char) : Option Rat :=
  let ds := l.takeWhile Char.isDigit
  let r := l.dropWhile Char.isDigit
  if ds = [] then none
  else
    match r with
    | [] => some ((charsToNat ds : Rat))
    | '.' :: fs =>
      if fs ≠ [] ∧ fs.all Char.isDigit then
        some ((charsToNat ds : Rat) + (charsToNat fs : Rat) / ((10 : Rat) ^ fs.length))
      else none
    | _ => none

/-- Parse a signed decimal numeral. -/
def parseDecimal (l : List Char) : Option Rat :=
  match l with
  | [] => none
  | c :: r => if c = '-' then (parseUnsignedDec r).map Neg.neg else parseUnsignedDec l

/-- Model of `pd.to_numeric(col, errors='coerce')` on one cell (cell 5):
a malformed numeric cell becomes the missing value `none` instead of
failing the load. -/
def toNumeric (s : String) : Option Rat := parseDecimal s.data

/-- A row after numeric coercion of all non-composition columns. -/
structure Entry where
  idx : Nat
  comp : String
  energy_pa : Option Rat
  volume_pa : Option Rat
  magmom_pa : Option Rat
  bandgap : Option Rat
  delta_e : Option Rat
  stability : Option Rat
deriving DecidableEq

/-- Cell 5: coerce every column except `comp`. -/
def coerceRow (r : RawRow) : Entry :=
  ⟨r.idx, r.comp, toNumeric r.energy_pa, toNumeric r.volume_pa, toNumeric r.magmom_pa,
    toNumeric r.bandgap, toNumeric r.delta_e, toNumeric r.stability⟩

/-- Cell 7: `oqmd_data.query('delta_e > -20 and delta_e < 5')`.
Comparisons against a missing value evaluate false, so such rows drop. -/
def deltaInRange (e : Entry) : Bool :=
  match e.delta_e with
  | some q => decide (-20 < q) && decide (q < 5)
  | none => false

/-- A cleaned row: the coerced row plus its parsed composition
(`comp_obj`, cell 9). -/
structure PEntry extends Entry where
  comp_obj : List (String × Rat)
deriving DecidableEq

/-- Cell 9: `Composition(x)` applied to every row; an unparseable
composition string is fatal for the run. -/
def parseAll (l : List Entry) : Option (List PEntry) :=
  l.mapM (fun e => (parseComp e.comp).map (fun c => PEntry.mk e c))

/-- Element symbols of a parsed composition, in storage order. -/
def elemList (c : List (String × Rat)) : List String := c.map Prod.fst

/-- Sort a list of symbols ascending (Python's `sorted`). -/
def sortStrings (l : List String) : List String := List.insertionSort strLe l

/-- Hyphen-join a list of symbols. -/
def hyphenJoin (l : List String) : String := String.mk (joinSep '-' (l.map String.data))

/-- Modelled from the spec: pymatgen's `reduced_formula` (cell 10) is
computed by an external library absent from the source; per spec §4.1 it
is the minimal-integer-ratio stoichiometry rendered with any stable
canonical ordering (the exact text is load-bearing only as a
deduplication key). This model sorts symbols ascending, rescales the
counts to coprime integers, and renders the symbol-count pairs. -/
def reducedFormula (c : List (String × Rat)) : String :=
  let sorted := List.insertionSort (fun a b : String × Rat => strLe a.1 b.1) c
  let scale : Nat := sorted.foldl (fun acc sq => Nat.lcm acc sq.2.den) 1
  let ints : List (String × Int) :=
    sorted.map (fun sq => (sq.1, sq.2.num * ((scale / sq.2.den : Nat) : Int)))
  let g : Nat := ints.foldl (fun acc si => Nat.gcd acc si.2.natAbs) 0
  let d : Int := if g = 0 then 1 else (g : Int)
  String.mk (ints.foldr (fun si acc => si.1.data ++ intChars (si.2 / d) ++ acc) [])

/-- Cell 10: the deduplication key column. -/
def prettyComp (p : PEntry) : String := reducedFormula p.comp_obj

/-- Cell 14: number of elements. -/
def nelems (p : PEntry) : Nat := p.comp_obj.length

/-- Cell 15: the system label, `"-".join` of the element symbols of the
composition. Modelled from the spec: the enumeration order of the
external `Composition` is not in the source; spec §3/§4.1 record the
label as the sorted unique element symbols, hyphen-joined. -/
def systemLabel (p : PEntry) : String := hyphenJoin (sortStrings (elemList p.comp_obj))

/-- Ordering key for `sort_values('delta_e')`: missing values sort last. -/
def dKey (o : Option Rat) : WithTop Rat :=
  match o with
  | none => ⊤
  | some q => (q : WithTop Rat)

/-- Row comparison by formation enthalpy. -/
def deLe (a b : PEntry) : Prop := dKey a.delta_e ≤ dKey b.delta_e

instance deLe_decidable : DecidableRel deLe := fun x y =>
  inferInstanceAs (Decidable (dKey x.delta_e ≤ dKey y.delta_e))

instance deLe_total : IsTotal PEntry deLe := ⟨fun x y => le_total (dKey x.delta_e) (dKey y.delta_e)⟩

instance deLe_trans : IsTrans PEntry deLe := ⟨fun _ _ _ hab hbc => le_trans hab hbc⟩

/-- Cell 12, first half: sort ascending by `delta_e`. -/
def sortByDelta (l : List PEntry) : List PEntry := List.insertionSort deLe l

/-- Deduplication loop, structurally recursive on a fuel bound; the
filtered tail is never longer than the tail, so fuel equal to the list
length never runs out. -/
def dropDupKeyF {α β : Type} [DecidableEq β] (key : α → β) : Nat → List α → List α
  | _, [] => []
  | 0, _ :: _ => []
  | fuel + 1, x :: xs =>
    x :: dropDupKeyF key fuel (xs.filter (fun y => decide (key y ≠ key x)))

/-- Cell 12, second half: `drop_duplicates(key, keep='first')` — keep the
first row of each key, in order. -/
def dropDupKey {α β : Type} [DecidableEq β] (key : α → β) (l : List α) : List α :=
  dropDupKeyF key l.length l

/-- Cells 3–15: the whole loader/cleaner. -/
def cleanedData (raw : List RawRow) : Option (List PEntry) :=
  (parseAll ((raw.map coerceRow).filter deltaInRange)).map
    (fun l => dropDupKey prettyComp (sortByDelta l))

/-! ### The two hold-out filters and the train sets -/

/-- `"-".join(sorted(set(comb)))` for one tuple of the product (cell 21). -/
def tupleLabel (t : List String) : String := hyphenJoin (sortStrings t.dedup)

/-- `product(*[elems,]*len(elems))`: all tuples of length `n` over `l`. -/
def selfProduct : Nat → List String → List (List String)
  | 0, _ => [[]]
  | n + 1, l => l.flatMap (fun x => (selfProduct n l).map (fun t => x :: t))

/-- The set of constituent-system labels of the quaternary filter. -/
def sourceSystems (elems : List String) : Finset String :=
  ((selfProduct elems.length elems).map tupleLabel).toFinset

/-- Cell 21 `get_test_data`: rows whose system label is one of the
constituent-system labels. -/
def getTestDataQuat (elems : List String) (ds : List PEntry) : List PEntry :=
  ds.filter (fun e => decide (systemLabel e ∈ sourceSystems elems))

/-- Python's `x.split("-")` on a system label. -/
def splitSystem (s : String) : List String := (splitCh '-' s.data).map String.mk

/-- Cell 33 `get_test_data`: rows whose system contains every target
element. -/
def getTestDataPair (elems : List String) (ds : List PEntry) : List PEntry :=
  ds.filter (fun e => elems.all (fun x => decide (x ∈ splitSystem (systemLabel e))))

/-- Cells 26/38: `oqmd_data.loc[oqmd_data.index.difference(test.index)]` —
the rows of the cleaned set whose index is not a test-set index. -/
def trainSet (ds test : List PEntry) : List PEntry :=
  ds.filter (fun e => decide (e.idx ∉ test.map (fun t => t.idx)))

/-! ### The exporter (cell 28) and its reader -/

/-- One exported row: raw composition, a space, then `delta_e` (a missing
value renders as an empty cell, pandas' default). -/
def magpieLine (e : PEntry) : List Char :=
  e.comp.data ++ ' ' :: (match e.delta_e with | some q => ratChars q | none => [])

/-- The exported rows, one line each. -/
def magpieBody : List PEntry → List Char
  | [] => []
  | e :: t => magpieLine e ++ '\n' :: magpieBody t

/-- `save_magpie`: header line naming the two fields, then the rows in
collection order. -/
def saveMagpie (rows : List PEntry) : List Char :=
  ("comp delta_e").data ++ '\n' :: magpieBody rows

/-- Read one data line: exactly two whitespace-separated fields, the
composition and the numeral. -/
def readMagpieLine (ln : List Char) : Option (String × Rat) :=
  match splitCh ' ' ln with
  | [c, d] => (parseRatCh d).map (fun q => (String.mk c, q))
  | _ => none

/-- Re-read an exported file: split into lines, drop blank lines, drop
the header, read two whitespace-separated fields per line. -/
def readMagpie (file : List Char) : Option (List (String × Rat)) :=
  match (splitCh '\n' file).filter (fun ln => decide (ln ≠ [])) with
  | [] => none
  | _hdr :: rows => rows.mapM readMagpieLine

/-! ### System labels: canonical form and injectivity -/

/-- Symbols usable in hyphen-joined labels: nonempty and hyphen-free.
Chemical element symbols (all-letter) satisfy this. -/
def validSym (s : String) : Prop := s.data ≠ [] ∧ '-' ∉ s.data

instance validSym_decidable (s : String) : Decidable (validSym s) := by
  unfold validSym; exact inferInstance

theorem symOK_validSym {s : String} (h : symOK s) : validSym s := by
  refine ⟨h.1, fun hm => ?_⟩
  have halpha : ('-').isAlpha = true := h.2 _ hm
  exact absurd halpha (by decide)

theorem sortStrings_sorted (l : List String) : List.Sorted strLe (sortStrings l) :=
  List.sorted_insertionSort strLe l

theorem sortStrings_perm (l : List String) : (sortStrings l).Perm l :=
  List.perm_insertionSort strLe l

theorem sortStrings_eq_of_perm {l₁ l₂ : List String} (h : l₁.Perm l₂) :
    sortStrings l₁ = sortStrings l₂ :=
  List.eq_of_perm_of_sorted
    ((sortStrings_perm l₁).trans (h.trans (sortStrings_perm l₂).symm))
    (sortStrings_sorted l₁) (sortStrings_sorted l₂)

theorem sortStrings_eq_of_toFinset {l₁ l₂ : List String} (h₁ : l₁.Nodup)
    (h₂ : l₂.Nodup) (he : l₁.toFinset = l₂.toFinset) :
    sortStrings l₁ = sortStrings l₂ :=
  sortStrings_eq_of_perm (List.perm_of_nodup_nodup_toFinset_eq h₁ h₂ he)

theorem string_data_injective : Function.Injective String.data := by
  intro a b h
  cases a with
  | mk da =>
    cases b with
    | mk db => exact congrArg String.mk h

theorem hyphenJoin_inj {l₁ l₂ : List String}
    (h₁ : ∀ s ∈ l₁, validSym s) (h₂ : ∀ s ∈ l₂, validSym s)
    (he : hyphenJoin l₁ = hyphenJoin l₂) : l₁ = l₂ := by
  have hd : joinSep '-' (l₁.map String.data) = joinSep '-' (l₂.map String.data) :=
    congrArg String.data he
  have hmaps := joinSep_injective
    (fun x hx => by
      obtain ⟨s, hs, rfl⟩ := List.mem_map.mp hx
      exact (h₁ s hs).2)
    (fun x hx => by
      obtain ⟨s, hs, rfl⟩ := List.mem_map.mp hx
      exact (h₂ s hs).2)
    (fun x hx => by
      obtain ⟨s, hs, rfl⟩ := List.mem_map.mp hx
      exact (h₁ s hs).1)
    (fun x hx => by
      obtain ⟨s, hs, rfl⟩ := List.mem_map.mp hx
      exact (h₂ s hs).1)
    hd
  exact List.map_injective_iff.mpr string_data_injective hmaps

theorem splitSystem_hyphenJoin {l : List String}
    (h : ∀ s ∈ l, validSym s) (hne : l ≠ []) : splitSystem (hyphenJoin l) = l := by
  unfold splitSystem hyphenJoin
  have hdata : (String.mk (joinSep '-' (l.map String.data))).data =
      joinSep '-' (l.map String.data) := rfl
  rw [hdata, splitCh_joinSep
    (fun x hx => by
      obtain ⟨s, hs, rfl⟩ := List.mem_map.mp hx
      exact (h s hs).2)
    (by
      intro hc
      exact hne (List.map_eq_nil_iff.mp hc)),
    List.map_map]
  have hid : (String.mk ∘ String.data) = id := by
    funext s
    rfl
  rw [hid, List.map_id]

/-- Two hyphen-joined sorted labels agree exactly when the underlying
element sets agree (for duplicate-free lists of valid symbols). -/
theorem label_eq_iff_toFinset_eq {l₁ l₂ : List String}
    (hn₁ : l₁.Nodup) (hn₂ : l₂.Nodup)
    (hv₁ : ∀ s ∈ l₁, validSym s) (hv₂ : ∀ s ∈ l₂, validSym s) :
    hyphenJoin (sortStrings l₁) = hyphenJoin (sortStrings l₂) ↔
      l₁.toFinset = l₂.toFinset := by
  constructor
  · intro he
    have hs : sortStrings l₁ = sortStrings l₂ :=
      hyphenJoin_inj
        (fun s hs => hv₁ s ((sortStrings_perm l₁).mem_iff.mp hs))
        (fun s hs => hv₂ s ((sortStrings_perm l₂).mem_iff.mp hs))
        he
    calc l₁.toFinset = (sortStrings l₁).toFinset :=
          (List.toFinset_eq_of_perm _ _ (sortStrings_perm l₁)).symm
      _ = (sortStrings l₂).toFinset := by rw [hs]
      _ = l₂.toFinset := List.toFinset_eq_of_perm _ _ (sortStrings_perm l₂)
  · intro he
    rw [sortStrings_eq_of_toFinset hn₁ hn₂ he]

/-! ### Inversion lemmas for the pipeline -/

theorem mapM_option_mem {α β : Type} {f : α → Option β} :
    ∀ {l : List α} {out : List β}, l.mapM f = some out →
      (∀ b ∈ out, ∃ a ∈ l, f a = some b) ∧ (∀ a ∈ l, ∃ b ∈ out, f a = some b) := by
  intro l
  induction l with
  | nil =>
    intro out h
    simp only [List.mapM_nil, pure, Option.some_inj] at h
    subst h
    exact ⟨fun b hb => absurd hb (List.not_mem_nil b), fun a ha => absurd ha (List.not_mem_nil a)⟩
  | cons a l ih =>
    intro out h
    rw [List.mapM_cons] at h
    cases hfa : f a with
    | none => rw [hfa] at h; simp at h
    | some b =>
      cases hml : l.mapM f with
      | none => rw [hfa, hml] at h; simp at h
      | some bs =>
        rw [hfa, hml] at h
        simp only [Option.bind_some, Option.bind_eq_bind, pure, Option.some_bind,
          Option.some_inj] at h
        subst h
        obtain ⟨ihf, ihb⟩ := ih hml
        constructor
        · intro x hx
          rcases List.mem_cons.mp hx with hx | hx
          · exact ⟨a, List.mem_cons_self _ _, hx ▸ hfa⟩
          · obtain ⟨a0, ha0, hfa0⟩ := ihf x hx
            exact ⟨a0, List.mem_cons_of_mem _ ha0, hfa0⟩
        · intro x hx
          rcases List.mem_cons.mp hx with hx | hx
          · exact ⟨b, List.mem_cons_self _ _, hx ▸ hfa⟩
          · obtain ⟨b0, hb0, hfb0⟩ := ihb x hx
            exact ⟨b0, List.mem_cons_of_mem _ hb0, hfb0⟩

theorem mapM_option_map_eq {α β γ : Type} {f : α → Option β} {g : β → γ} {gA : α → γ}
    (hf : ∀ a b, f a = some b → g b = gA a) :
    ∀ {l : List α} {out : List β}, l.mapM f = some out → out.map g = l.map gA := by
  intro l
  induction l with
  | nil =>
    intro out h
    simp only [List.mapM_nil, pure, Option.some_inj] at h
    subst h
    rfl
  | cons a l ih =>
    intro out h
    rw [List.mapM_cons] at h
    cases hfa : f a with
    | none => rw [hfa] at h; simp at h
    | some b =>
      cases hml : l.mapM f with
      | none => rw [hfa, hml] at h; simp at h
      | some bs =>
        rw [hfa, hml] at h
        simp only [Option.bind_some, Option.bind_eq_bind, pure, Option.some_bind,
          Option.some_inj] at h
        subst h
        simp only [List.map_cons]
        rw [hf a b hfa, ih hml]

theorem dropDupKeyF_sublist {α β : Type} [DecidableEq β] (key : α → β) :
    ∀ (f : Nat) (l : List α), (dropDupKeyF key f l).Sublist l := by
  intro f
  induction f with
  | zero =>
    intro l
    cases l with
    | nil => exact List.Sublist.refl _
    | cons x xs => exact List.nil_sublist _
  | succ f ih =>
    intro l
    cases l with
    | nil => exact List.Sublist.refl _
    | cons x xs =>
      exact List.Sublist.cons₂ x ((ih _).trans (List.filter_sublist xs))

theorem dropDupKeyF_keys_nodup {α β : Type} [DecidableEq β] (key : α → β) :
    ∀ (f : Nat) (l : List α), ((dropDupKeyF key f l).map key).Nodup := by
  intro f
  induction f with
  | zero =>
    intro l
    cases l with
    | nil => exact List.nodup_nil
    | cons x xs => exact List.nodup_nil
  | succ f ih =>
    intro l
    cases l with
    | nil => exact List.nodup_nil
    | cons x xs =>
      simp only [dropDupKeyF, List.map_cons, List.nodup_cons]
      refine ⟨?_, ih _⟩
      intro hmem
      obtain ⟨e, he, hke⟩ := List.mem_map.mp hmem
      have hef : e ∈ xs.filter (fun y => decide (key y ≠ key x)) :=
        (dropDupKeyF_sublist key f _).mem he
      have := (List.mem_filter.mp hef).2
      simp only [decide_eq_true_eq] at this
      exact this hke

theorem dropDupKeyF_min {α β : Type} [DecidableEq β] (key : α → β)
    {r : α → α → Prop} (hrefl : ∀ a, r a a) :
    ∀ (f : Nat) (l : List α), List.Sorted r l →
      ∀ e ∈ dropDupKeyF key f l, ∀ x ∈ l, key x = key e → r e x := by
  intro f
  induction f with
  | zero =>
    intro l hs e he
    cases l with
    | nil => exact absurd he (List.not_mem_nil e)
    | cons x xs => exact absurd he (List.not_mem_nil e)
  | succ f ih =>
    intro l hs e he
    cases l with
    | nil => exact absurd he (List.not_mem_nil e)
    | cons x xs =>
      obtain ⟨hx, hxs⟩ := List.sorted_cons.mp hs
      simp only [dropDupKeyF] at he
      rcases List.mem_cons.mp he with he | he
      · subst he
        intro y hy hky
        rcases List.mem_cons.mp hy with hy | hy
        · exact hy ▸ hrefl e
        · exact hx y hy
      · have hsf : List.Sorted r (xs.filter (fun y => decide (key y ≠ key x))) :=
          hxs.sublist (List.filter_sublist xs)
        have hne : key e ≠ key x := by
          have hef : e ∈ xs.filter (fun y => decide (key y ≠ key x)) :=
            (dropDupKeyF_sublist key f _).mem he
          have := (List.mem_filter.mp hef).2
          simpa using this
        intro y hy hky
        rcases List.mem_cons.mp hy with hy | hy
        · exact absurd (hy ▸ hky).symm hne
        · by_cases hkyx : key y = key x
          · exact absurd (hky.symm.trans hkyx) hne
          · have hyf : y ∈ xs.filter (fun z => decide (key z ≠ key x)) :=
              List.mem_filter.mpr ⟨hy, by simpa using hkyx⟩
            exact ih _ hsf e he y hyf hky

theorem dropDupKeyF_complete {α β : Type} [DecidableEq β] (key : α → β) :
    ∀ (f : Nat) (l : List α), l.length ≤ f →
      ∀ x ∈ l, ∃ e ∈ dropDupKeyF key f l, key e = key x := by
  intro f
  induction f with
  | zero =>
    intro l hl x hx
    rw [Nat.le_zero, List.length_eq_zero] at hl
    subst hl
    exact absurd hx (List.not_mem_nil x)
  | succ f ih =>
    intro l hl x hx
    cases l with
    | nil => exact absurd hx (List.not_mem_nil x)
    | cons a xs =>
      simp only [dropDupKeyF]
      rcases List.mem_cons.mp hx with hx | hx
      · exact ⟨a, List.mem_cons_self _ _, by rw [hx]⟩
      · by_cases hk : key x = key a
        · exact ⟨a, List.mem_cons_self _ _, hk.symm⟩
        · have hxf : x ∈ xs.filter (fun y => decide (key y ≠ key a)) :=
            List.mem_filter.mpr ⟨hx, by simpa using hk⟩
          have hlen : (xs.filter (fun y => decide (key y ≠ key a))).length ≤ f := by
            have h1 := List.length_filter_le (fun y => decide (key y ≠ key a)) xs
            simp only [List.length_cons] at hl
            omega
          obtain ⟨e, he, hke⟩ := ih _ hlen x hxf
          exact ⟨e, List.mem_cons_of_mem _ he, hke⟩

/-- Unfold a successful run of the cleaner. -/
theorem cleanedData_inv {raw : List RawRow} {ds : List PEntry}
    (h : cleanedData raw = some ds) :
    ∃ l, parseAll ((raw.map coerceRow).filter deltaInRange) = some l ∧
      ds = dropDupKey prettyComp (sortByDelta l) := by
  unfold cleanedData at h
  cases hp : parseAll ((raw.map coerceRow).filter deltaInRange) with
  | none => rw [hp] at h; simp at h
  | some l =>
    rw [hp] at h
    simp only [Option.map_some', Option.some_inj] at h
    exact ⟨l, rfl, h.symm⟩

/-- Every cleaned row carries the parse of its own composition string and
passed the formation-enthalpy range filter. -/
theorem cleaned_mem {raw : List RawRow} {ds : List PEntry}
    (h : cleanedData raw = some ds) {p : PEntry} (hp : p ∈ ds) :
    parseComp p.comp = some p.comp_obj ∧ deltaInRange p.toEntry = true := by
  obtain ⟨l, hl, hds⟩ := cleanedData_inv h
  have hpl : p ∈ l := by
    rw [hds] at hp
    have h1 : p ∈ sortByDelta l := (dropDupKeyF_sublist prettyComp _ _).mem hp
    exact (List.perm_insertionSort deLe l).mem_iff.mp h1
  obtain ⟨hfwd, _⟩ := mapM_option_mem hl
  obtain ⟨e, he, hfe⟩ := hfwd p hpl
  cases hpc : parseComp e.comp with
  | none => rw [hpc] at hfe; simp at hfe
  | some c =>
    rw [hpc] at hfe
    simp only [Option.map_some', Option.some_inj] at hfe
    subst hfe
    refine ⟨hpc, ?_⟩
    exact (List.mem_filter.mp he).2

/-- Structural facts about the composition of every cleaned row. -/
theorem cleaned_elems {raw : List RawRow} {ds : List PEntry}
    (h : cleanedData raw = some ds) {p : PEntry} (hp : p ∈ ds) :
    p.comp_obj ≠ [] ∧ (elemList p.comp_obj).Nodup ∧
      ∀ s ∈ elemList p.comp_obj, symOK s :=
  parseComp_props (cleaned_mem h hp).1

/-- The formation enthalpy of every cleaned row is present and in range. -/
theorem cleaned_delta {raw : List RawRow} {ds : List PEntry}
    (h : cleanedData raw = some ds) {p : PEntry} (hp : p ∈ ds) :
    ∃ q, p.delta_e = some q ∧ -20 < q ∧ q < 5 := by
  have hd := (cleaned_mem h hp).2
  unfold deltaInRange at hd
  cases hq : p.delta_e with
  | none => rw [hq] at hd; simp at hd
  | some q =>
    rw [hq] at hd
    simp only [Bool.and_eq_true, decide_eq_true_eq] at hd
    exact ⟨q, rfl, hd.1, hd.2⟩

/-! ### The filters: membership characterizations -/

theorem mem_selfProduct {n : Nat} {l : List String} :
    ∀ {t : List String}, t ∈ selfProduct n l ↔ t.length = n ∧ ∀ x ∈ t, x ∈ l := by
  induction n with
  | zero =>
    intro t
    simp only [selfProduct, List.mem_singleton]
    constructor
    · rintro rfl
      exact ⟨rfl, fun x hx => absurd hx (List.not_mem_nil x)⟩
    · rintro ⟨hlen, _⟩
      exact List.length_eq_zero.mp hlen
  | succ n ih =>
    intro t
    simp only [selfProduct, List.mem_flatMap, List.mem_map]
    constructor
    · rintro ⟨x, hx, t0, ht0, rfl⟩
      obtain ⟨hlen, hmem⟩ := ih.mp ht0
      refine ⟨by simp [hlen], ?_⟩
      intro y hy
      rcases List.mem_cons.mp hy with hy | hy
      · exact hy ▸ hx
      · exact hmem y hy
    · rintro ⟨hlen, hmem⟩
      cases t with
      | nil => simp at hlen
      | cons x t0 =>
        exact ⟨x, hmem x (List.mem_cons_self _ _),
          t0, ih.mpr ⟨by simpa using hlen, fun y hy => hmem y (List.mem_cons_of_mem _ hy)⟩, rfl⟩

theorem mem_sourceSystems {E : List String} {s : String} :
    s ∈ sourceSystems E ↔
      ∃ t, t.length = E.length ∧ (∀ x ∈ t, x ∈ E) ∧ s = tupleLabel t := by
  unfold sourceSystems
  rw [List.mem_toFinset, List.mem_map]
  constructor
  · rintro ⟨t, ht, rfl⟩
    obtain ⟨hlen, hmem⟩ := mem_selfProduct.mp ht
    exact ⟨t, hlen, hmem, rfl⟩
  · rintro ⟨t, hlen, hmem, rfl⟩
    exact ⟨t, mem_selfProduct.mpr ⟨hlen, hmem⟩, rfl⟩

theorem list_toFinset_dedup (l : List String) : l.dedup.toFinset = l.toFinset := by
  ext y
  simp [List.mem_toFinset, List.mem_dedup]

theorem quat_mem_iff {E : List String} {ds : List PEntry} {p : PEntry} :
    p ∈ getTestDataQuat E ds ↔ p ∈ ds ∧ systemLabel p ∈ sourceSystems E := by
  unfold getTestDataQuat
  rw [List.mem_filter]
  simp

/-- Soundness core of the quaternary filter: a selected row's element set
is a nonempty subset of the target. -/
theorem quat_sound {raw : List RawRow} {ds : List PEntry} {E : List String} {p : PEntry}
    (h : cleanedData raw = some ds) (hE : ∀ s ∈ E, validSym s)
    (hp : p ∈ getTestDataQuat E ds) :
    p ∈ ds ∧ (elemList p.comp_obj).toFinset ≠ ∅ ∧
      (elemList p.comp_obj).toFinset ⊆ E.toFinset := by
  obtain ⟨hpd, hsys⟩ := quat_mem_iff.mp hp
  obtain ⟨t, htlen, htmem, hts⟩ := mem_sourceSystems.mp hsys
  obtain ⟨hne, hnd, hsym⟩ := cleaned_elems h hpd
  have hlab : hyphenJoin (sortStrings (elemList p.comp_obj)) =
      hyphenJoin (sortStrings t.dedup) := hts
  have hfs : (elemList p.comp_obj).toFinset = t.dedup.toFinset :=
    (label_eq_iff_toFinset_eq hnd (List.nodup_dedup t)
      (fun s hs => symOK_validSym (hsym s hs))
      (fun s hs => hE s (htmem s (List.mem_dedup.mp hs)))).mp hlab
  refine ⟨hpd, ?_, ?_⟩
  · intro h0
    cases hel : elemList p.comp_obj with
    | nil => exact hne (by
        cases hobj : p.comp_obj with
        | nil => rfl
        | cons a tl => rw [hobj] at hel; simp [elemList] at hel)
    | cons a tl =>
      have : a ∈ (elemList p.comp_obj).toFinset := by
        rw [List.mem_toFinset, hel]
        exact List.mem_cons_self _ _
      rw [h0] at this
      exact absurd this (Finset.not_mem_empty a)
  · intro x hx
    rw [hfs, List.mem_toFinset, List.mem_dedup] at hx
    rw [List.mem_toFinset]
    exact htmem x hx

/-- Completeness core of the quaternary filter: every cleaned row whose
element set is contained in a nonempty target is selected. -/
theorem quat_complete {raw : List RawRow} {ds : List PEntry} {E : List String} {p : PEntry}
    (h : cleanedData raw = some ds) (_hEne : E ≠ []) (hp : p ∈ ds)
    (hsub : (elemList p.comp_obj).toFinset ⊆ E.toFinset) :
    p ∈ getTestDataQuat E ds := by
  rw [quat_mem_iff]
  refine ⟨hp, ?_⟩
  rw [mem_sourceSystems]
  obtain ⟨hne, hnd, hsym⟩ := cleaned_elems h hp
  have helne : elemList p.comp_obj ≠ [] := by
    intro h0
    apply hne
    cases hobj : p.comp_obj with
    | nil => rfl
    | cons a tl => rw [hobj] at h0; simp [elemList] at h0
  obtain ⟨x, rest, hel⟩ := List.exists_cons_of_ne_nil helne
  have hxmem : x ∈ elemList p.comp_obj := by rw [hel]; exact List.mem_cons_self _ _
  have hlen_le : (elemList p.comp_obj).length ≤ E.length := by
    calc (elemList p.comp_obj).length = (elemList p.comp_obj).toFinset.card :=
          (List.toFinset_card_of_nodup hnd).symm
      _ ≤ E.toFinset.card := Finset.card_le_card hsub
      _ ≤ E.length := List.toFinset_card_le E
  refine ⟨elemList p.comp_obj ++
      List.replicate (E.length - (elemList p.comp_obj).length) x, ?_, ?_, ?_⟩
  · rw [List.length_append, List.length_replicate]
    omega
  · intro y hy
    have hyel : y ∈ elemList p.comp_obj := by
      rcases List.mem_append.mp hy with hy | hy
      · exact hy
      · rw [(List.eq_of_mem_replicate hy)]
        exact hxmem
    have : y ∈ E.toFinset := hsub (List.mem_toFinset.mpr hyel)
    exact List.mem_toFinset.mp this
  · show systemLabel p = tupleLabel _
    unfold tupleLabel systemLabel
    congr 1
    apply sortStrings_eq_of_toFinset hnd (List.nodup_dedup _)
    rw [list_toFinset_dedup, List.toFinset_append]
    apply Finset.Subset.antisymm
    · exact Finset.subset_union_left
    · apply Finset.union_subset (Finset.Subset.refl _)
      intro y hy
      rw [List.mem_toFinset] at hy
      rw [List.mem_toFinset, (List.eq_of_mem_replicate hy)]
      exact hxmem

/-- On every cleaned row, splitting its system label on hyphens recovers
the sorted element symbols. -/
theorem cleaned_splitSystem {raw : List RawRow} {ds : List PEntry}
    (h : cleanedData raw = some ds) {p : PEntry} (hp : p ∈ ds) :
    splitSystem (systemLabel p) = sortStrings (elemList p.comp_obj) := by
  obtain ⟨hne, hnd, hsym⟩ := cleaned_elems h hp
  apply splitSystem_hyphenJoin
  · intro s hs
    exact symOK_validSym (hsym s ((sortStrings_perm _).mem_iff.mp hs))
  · intro h0
    have hl := (sortStrings_perm (elemList p.comp_obj)).length_eq
    rw [h0] at hl
    cases hobj : p.comp_obj with
    | nil => exact hne hobj
    | cons a tl =>
      rw [hobj] at hl
      simp [elemList] at hl

theorem pair_mem_iff {raw : List RawRow} {ds : List PEntry}
    (h : cleanedData raw = some ds) {P : List String} {p : PEntry} :
    p ∈ getTestDataPair P ds ↔ p ∈ ds ∧ ∀ x ∈ P, x ∈ elemList p.comp_obj := by
  unfold getTestDataPair
  rw [List.mem_filter]
  constructor
  · rintro ⟨hpd, hall⟩
    refine ⟨hpd, ?_⟩
    intro x hx
    rw [List.all_eq_true] at hall
    have := hall x hx
    rw [decide_eq_true_eq, cleaned_splitSystem h hpd] at this
    exact (sortStrings_perm _).mem_iff.mp this
  · rintro ⟨hpd, hall⟩
    refine ⟨hpd, ?_⟩
    rw [List.all_eq_true]
    intro x hx
    rw [decide_eq_true_eq, cleaned_splitSystem h hpd]
    exact (sortStrings_perm _).mem_iff.mpr (hall x hx)

/-! ### Train sets and row identity -/

theorem trainSet_mem {ds test : List PEntry} {p : PEntry} :
    p ∈ trainSet ds test ↔ p ∈ ds ∧ p.idx ∉ test.map (fun t => t.idx) := by
  unfold trainSet
  rw [List.mem_filter]
  simp

theorem test_train_disjoint {ds test : List PEntry} (p : PEntry) :
    ¬ (p ∈ test ∧ p ∈ trainSet ds test) := by
  rintro ⟨hpt, hptr⟩
  exact (trainSet_mem.mp hptr).2 (List.mem_map.mpr ⟨p, hpt, rfl⟩)

theorem test_train_union {ds test : List PEntry}
    (hnodup : (ds.map (fun e => e.idx)).Nodup) (hsub : ∀ p ∈ test, p ∈ ds)
    (p : PEntry) : p ∈ ds ↔ p ∈ test ∨ p ∈ trainSet ds test := by
  constructor
  · intro hp
    by_cases hidx : p.idx ∈ test.map (fun t => t.idx)
    · left
      obtain ⟨q, hq, hqi⟩ := List.mem_map.mp hidx
      have hqp : q = p :=
        List.inj_on_of_nodup_map hnodup (hsub q hq) hp hqi
      exact hqp ▸ hq
    · exact Or.inr (trainSet_mem.mpr ⟨hp, hidx⟩)
  · intro hp
    rcases hp with hp | hp
    · exact hsub p hp
    · exact (trainSet_mem.mp hp).1

/-- Distinct raw row identities stay distinct through the whole cleaner. -/
theorem cleaned_idx_nodup {raw : List RawRow} {ds : List PEntry}
    (hn : (raw.map RawRow.idx).Nodup) (h : cleanedData raw = some ds) :
    (ds.map (fun e => e.idx)).Nodup := by
  obtain ⟨l, hl, hds⟩ := cleanedData_inv h
  have h1 : ((raw.map coerceRow).map Entry.idx) = raw.map RawRow.idx := by
    rw [List.map_map]
    rfl
  have h1n : ((raw.map coerceRow).map Entry.idx).Nodup := h1 ▸ hn
  have h2n : (((raw.map coerceRow).filter deltaInRange).map Entry.idx).Nodup :=
    h1n.sublist ((List.filter_sublist _).map _)
  have h3 : l.map (fun p => p.idx) = ((raw.map coerceRow).filter deltaInRange).map Entry.idx := by
    refine mapM_option_map_eq ?_ hl
    intro e p hfe
    cases hpc : parseComp e.comp with
    | none => rw [hpc] at hfe; simp at hfe
    | some c =>
      rw [hpc] at hfe
      simp only [Option.map_some', Option.some_inj] at hfe
      rw [← hfe]
  have h3n : (l.map (fun p => p.idx)).Nodup := h3 ▸ h2n
  have h4n : ((sortByDelta l).map (fun p => p.idx)).Nodup :=
    (((List.perm_insertionSort deLe l).map (fun p => p.idx)).nodup_iff).mpr h3n
  rw [hds]
  exact h4n.sublist ((dropDupKeyF_sublist prettyComp _ _).map _)

/-! ### The spec's direct power-set enumeration (for the refinement) -/

/-- The replacement enumeration the spec proposes (§9): enumerate every
non-empty subset of the target set directly and label it the same way. -/
def specSystems (E : List String) : Finset String :=
  ((E.dedup.sublists.filter (fun S => decide (S ≠ []))).map
    (fun S => hyphenJoin (sortStrings S))).toFinset

theorem mem_specSystems {E : List String} {s : String} :
    s ∈ specSystems E ↔
      ∃ S, S ∈ E.dedup.sublists ∧ S ≠ [] ∧ s = hyphenJoin (sortStrings S) := by
  unfold specSystems
  rw [List.mem_toFinset, List.mem_map]
  constructor
  · rintro ⟨S, hS, rfl⟩
    obtain ⟨hS1, hS2⟩ := List.mem_filter.mp hS
    exact ⟨S, hS1, by simpa using hS2, rfl⟩
  · rintro ⟨S, hS1, hS2, rfl⟩
    exact ⟨S, List.mem_filter.mpr ⟨hS1, by simpa using hS2⟩, rfl⟩

/-- The two enumerations produce exactly the same label set (for a
nonempty target): the O(n^n) Cartesian-product enumeration is a
refinement of direct subset enumeration. -/
theorem sourceSystems_eq_specSystems {E : List String} (hne : E ≠ []) :
    sourceSystems E = specSystems E := by
  ext s
  rw [mem_sourceSystems, mem_specSystems]
  constructor
  · rintro ⟨t, htlen, htmem, rfl⟩
    have htne : t ≠ [] := by
      intro h0
      rw [h0] at htlen
      exact hne (List.length_eq_zero.mp htlen.symm)
    obtain ⟨y0, hy0⟩ := List.exists_mem_of_ne_nil t htne
    refine ⟨E.dedup.filter (fun y => decide (y ∈ t)), ?_, ?_, ?_⟩
    · exact List.mem_sublists.mpr (List.filter_sublist _)
    · exact List.ne_nil_of_mem (List.mem_filter.mpr
        ⟨List.mem_dedup.mpr (htmem y0 hy0), by simpa using hy0⟩)
    · unfold tupleLabel
      congr 1
      apply sortStrings_eq_of_toFinset (List.nodup_dedup t)
        ((List.nodup_dedup E).filter _)
      ext y
      simp only [List.mem_toFinset, List.mem_dedup, List.mem_filter,
        decide_eq_true_eq]
      exact ⟨fun hy => ⟨htmem y hy, hy⟩, fun hy => hy.2⟩
  · rintro ⟨S, hSsub, hSne, rfl⟩
    have hSsl : S.Sublist E.dedup := List.mem_sublists.mp hSsub
    have hSnd : S.Nodup := (List.nodup_dedup E).sublist hSsl
    have hSmem : ∀ x ∈ S, x ∈ E := fun x hx =>
      List.mem_dedup.mp (hSsl.mem hx)
    have hSlen : S.length ≤ E.length :=
      le_trans hSsl.length_le (List.dedup_sublist E).length_le
    obtain ⟨x0, hx0⟩ := List.exists_mem_of_ne_nil S hSne
    refine ⟨S ++ List.replicate (E.length - S.length) x0, ?_, ?_, ?_⟩
    · rw [List.length_append, List.length_replicate]
      omega
    · intro y hy
      rcases List.mem_append.mp hy with hy | hy
      · exact hSmem y hy
      · rw [List.eq_of_mem_replicate hy]
        exact hSmem x0 hx0
    · unfold tupleLabel
      congr 1
      apply (sortStrings_eq_of_toFinset ((List.nodup_dedup _)) hSnd ?_).symm
      rw [list_toFinset_dedup, List.toFinset_append]
      apply Finset.Subset.antisymm
      · apply Finset.union_subset (Finset.Subset.refl _)
        intro y hy
        rw [List.mem_toFinset] at hy
        rw [List.mem_toFinset, List.eq_of_mem_replicate hy]
        exact hx0
      · exact Finset.subset_union_left

/-! ### Exporter round trip -/

theorem ratChars_no_space (q : Rat) : ' ' ∉ ratChars q := by
  intro hm
  rcases mem_ratChars hm with h | h | h
  · exact absurd h (by decide)
  · exact absurd h (by decide)
  · exact absurd h (by decide)

theorem ratChars_no_newline (q : Rat) : '\n' ∉ ratChars q := by
  intro hm
  rcases mem_ratChars hm with h | h | h
  · exact absurd h (by decide)
  · exact absurd h (by decide)
  · exact absurd h (by decide)

theorem magpieLine_ne_nil (e : PEntry) : magpieLine e ≠ [] := by
  unfold magpieLine
  intro h
  exact List.cons_ne_nil _ _ (List.append_eq_nil.mp h).2

theorem magpieLine_no_newline {e : PEntry} (hnl : '\n' ∉ e.comp.data) :
    '\n' ∉ magpieLine e := by
  unfold magpieLine
  intro hm
  rcases List.mem_append.mp hm with hm | hm
  · exact hnl hm
  · rcases List.mem_cons.mp hm with hm | hm
    · exact absurd hm (by decide)
    · cases hq : e.delta_e with
      | none => rw [hq] at hm; exact absurd hm (List.not_mem_nil _)
      | some q => rw [hq] at hm; exact ratChars_no_newline q hm

theorem splitLines_magpieBody :
    ∀ {rows : List PEntry}, (∀ e ∈ rows, '\n' ∉ e.comp.data) →
      splitCh '\n' (magpieBody rows) = rows.map magpieLine ++ [[]] := by
  intro rows
  induction rows with
  | nil => intro _; rfl
  | cons e rest ih =>
    intro hok
    show splitCh '\n' (magpieLine e ++ '\n' :: magpieBody rest) = _
    rw [splitCh_append_sep _ (magpieLine_no_newline (hok e (List.mem_cons_self _ _))),
      ih (fun x hx => hok x (List.mem_cons_of_mem _ hx))]
    rfl

theorem readMagpieLine_magpieLine {e : PEntry} {q : Rat} (hq : e.delta_e = some q)
    (hsp : ' ' ∉ e.comp.data) :
    readMagpieLine (magpieLine e) = some (e.comp, q) := by
  have hsplit : splitCh ' ' (magpieLine e) = [e.comp.data, ratChars q] := by
    unfold magpieLine
    rw [hq, splitCh_append_sep _ hsp, splitCh_no_sep (ratChars_no_space q)]
  unfold readMagpieLine
  rw [hsplit]
  simp only [parseRatCh_ratChars, Option.map_some']

theorem mapM_readMagpieLines {rows : List PEntry}
    (hok : ∀ e ∈ rows, ' ' ∉ e.comp.data ∧ ∃ q, e.delta_e = some q) :
    (rows.map magpieLine).mapM readMagpieLine =
      some (rows.map (fun e => (e.comp, e.delta_e.getD 0))) := by
  induction rows with
  | nil => rfl
  | cons e rest ih =>
    obtain ⟨hsp, q, hq⟩ := hok e (List.mem_cons_self _ _)
    rw [List.map_cons, List.mapM_cons,
      readMagpieLine_magpieLine hq hsp,
      ih (fun x hx => hok x (List.mem_cons_of_mem _ hx))]
    simp [hq]

theorem readMagpie_eq (file : List Char) :
    readMagpie file =
      match (splitCh '\n' file).filter (fun ln => decide (ln ≠ [])) with
      | [] => none
      | _hdr :: rows => rows.mapM readMagpieLine := rfl

/-- Round trip of the exporter on any collection whose composition
strings avoid the separators and whose `delta_e` is present. -/
theorem readMagpie_saveMagpie {rows : List PEntry}
    (hok : ∀ e ∈ rows, ' ' ∉ e.comp.data ∧ '\n' ∉ e.comp.data ∧ ∃ q, e.delta_e = some q) :
    readMagpie (saveMagpie rows) =
      some (rows.map (fun e => (e.comp, e.delta_e.getD 0))) := by
  have hlines : splitCh '\n' (saveMagpie rows) =
      ("comp delta_e").data :: (rows.map magpieLine ++ [[]]) := by
    unfold saveMagpie
    rw [splitCh_append_sep _ (by decide), splitLines_magpieBody (fun e he => (hok e he).2.1)]
  have hfil : (splitCh '\n' (saveMagpie rows)).filter (fun ln => decide (ln ≠ [])) =
      ("comp delta_e").data :: rows.map magpieLine := by
    rw [hlines, List.filter_cons_of_pos (by decide), List.filter_append]
    rw [List.filter_eq_self.mpr ?_]
    · simp
    · intro a ha
      obtain ⟨e, _, rfl⟩ := List.mem_map.mp ha
      simpa using magpieLine_ne_nil e
  rw [readMagpie_eq, hfil]
  exact mapM_readMagpieLines (fun e he => ⟨(hok e he).1, (hok e he).2.2⟩)

/-! ### Concrete data for witnesses -/

/-- A small raw table: the spec's scenario rows, a duplicated reduced
formula at two energies, an out-of-range row and a malformed numeric
cell. -/
def sampleRaw : List RawRow :=
  [⟨0, "NaCl", "0", "0", "0", "0", "-1", "0"⟩,
   ⟨1, "Na2O", "0", "0", "0", "0", "-2", "0"⟩,
   ⟨2, "KCl", "0", "0", "0", "0", "-1", "0"⟩,
   ⟨3, "Fe2O3", "0", "0", "0", "0", "-3", "0"⟩,
   ⟨4, "Fe4O6", "0", "0", "0", "0", "-4", "0"⟩,
   ⟨5, "Mg1", "0", "0", "0", "0", "7", "0"⟩,
   ⟨6, "Al1", "0", "0", "0", "0", "oops", "0"⟩]

/-- The coerced, range-filtered, parsed rows of `sampleRaw`. -/
def sampleParsed : List PEntry :=
  [⟨⟨0, "NaCl", some 0, some 0, some 0, some 0, some (-1), some 0⟩, [("Na", 1), ("Cl", 1)]⟩,
   ⟨⟨1, "Na2O", some 0, some 0, some 0, some 0, some (-2), some 0⟩, [("Na", 2), ("O", 1)]⟩,
   ⟨⟨2, "KCl", some 0, some 0, some 0, some 0, some (-1), some 0⟩, [("K", 1), ("Cl", 1)]⟩,
   ⟨⟨3, "Fe2O3", some 0, some 0, some 0, some 0, some (-3), some 0⟩, [("Fe", 2), ("O", 3)]⟩,
   ⟨⟨4, "Fe4O6", some 0, some 0, some 0, some 0, some (-4), some 0⟩, [("Fe", 4), ("O", 6)]⟩]

/-- The cleaned collection of `sampleRaw`: sorted by energy, one row per
reduced formula (Fe2O3 kept at its lowest energy, the Fe4O6 row). -/
def sampleDS : List PEntry :=
  [⟨⟨4, "Fe4O6", some 0, some 0, some 0, some 0, some (-4), some 0⟩, [("Fe", 4), ("O", 6)]⟩,
   ⟨⟨1, "Na2O", some 0, some 0, some 0, some 0, some (-2), some 0⟩, [("Na", 2), ("O", 1)]⟩,
   ⟨⟨0, "NaCl", some 0, some 0, some 0, some 0, some (-1), some 0⟩, [("Na", 1), ("Cl", 1)]⟩,
   ⟨⟨2, "KCl", some 0, some 0, some 0, some 0, some (-1), some 0⟩, [("K", 1), ("Cl", 1)]⟩]

/-! ### The claims -/

/-- C1: for the quaternary (full-system) exclusion filter with any
nonempty target set `E` of element symbols, every returned row's element
set is a nonempty subset of `E`, and every cleaned row whose element set
is a subset of `E` is returned. -/
theorem quaternary_filter_sound_complete (raw : List RawRow) (ds : List PEntry)
    (E : List String) (h : cleanedData raw = some ds)
    (hE : ∀ s ∈ E, validSym s) (hEne : E ≠ []) :
    (∀ p ∈ getTestDataQuat E ds, p ∈ ds ∧ (elemList p.comp_obj).toFinset ≠ ∅ ∧
      (elemList p.comp_obj).toFinset ⊆ E.toFinset) ∧
    (∀ p ∈ ds, (elemList p.comp_obj).toFinset ⊆ E.toFinset →
      p ∈ getTestDataQuat E ds) :=
  ⟨fun _ hp => quat_sound h hE hp, fun _ hp hsub => quat_complete h hEne hp hsub⟩

theorem quaternary_filter_witness :
    cleanedData sampleRaw = some sampleDS ∧ (∀ s ∈ ["Na", "Cl"], validSym s) ∧
      (["Na", "Cl"] ≠ []) ∧
    ((∀ p ∈ getTestDataQuat ["Na", "Cl"] sampleDS, p ∈ sampleDS ∧
        (elemList p.comp_obj).toFinset ≠ ∅ ∧
        (elemList p.comp_obj).toFinset ⊆ (["Na", "Cl"] : List String).toFinset) ∧
      (∀ p ∈ sampleDS, (elemList p.comp_obj).toFinset ⊆ (["Na", "Cl"] : List String).toFinset →
        p ∈ getTestDataQuat ["Na", "Cl"] sampleDS)) :=
  ⟨by decide, by decide, by decide,
    quaternary_filter_sound_complete sampleRaw sampleDS ["Na", "Cl"]
      (by decide) (by decide) (by decide)⟩

/-- C2: for the pairwise (superset-inclusion) filter with any target set
`P`, every returned row's element set contains every element of `P`, and
every cleaned row whose element set contains every element of `P` is
returned. -/
theorem pairwise_filter_sound_complete (raw : List RawRow) (ds : List PEntry)
    (P : List String) (h : cleanedData raw = some ds) :
    (∀ p ∈ getTestDataPair P ds, p ∈ ds ∧ ∀ x ∈ P, x ∈ elemList p.comp_obj) ∧
    (∀ p ∈ ds, (∀ x ∈ P, x ∈ elemList p.comp_obj) → p ∈ getTestDataPair P ds) :=
  ⟨fun _ hp => (pair_mem_iff h).mp hp, fun _ hp hall => (pair_mem_iff h).mpr ⟨hp, hall⟩⟩

theorem pairwise_filter_witness :
    cleanedData sampleRaw = some sampleDS ∧
    ((∀ p ∈ getTestDataPair ["Na"] sampleDS, p ∈ sampleDS ∧
        ∀ x ∈ ["Na"], x ∈ elemList p.comp_obj) ∧
      (∀ p ∈ sampleDS, (∀ x ∈ ["Na"], x ∈ elemList p.comp_obj) →
        p ∈ getTestDataPair ["Na"] sampleDS)) :=
  ⟨by decide, pairwise_filter_sound_complete sampleRaw sampleDS ["Na"] (by decide)⟩

/-- C3: on every cleaned row the system label is the sorted unique
element symbols hyphen-joined, and rows with equal element sets receive
the identical label string (independent of stoichiometry and of the
order of symbols in the composition string). -/
theorem system_label_canonical (raw : List RawRow) (ds : List PEntry)
    (h : cleanedData raw = some ds) :
    (∀ p ∈ ds, systemLabel p = hyphenJoin (sortStrings (elemList p.comp_obj).dedup)) ∧
    (∀ p₁ ∈ ds, ∀ p₂ ∈ ds,
      (elemList p₁.comp_obj).toFinset = (elemList p₂.comp_obj).toFinset →
      systemLabel p₁ = systemLabel p₂) := by
  constructor
  · intro p hp
    obtain ⟨_, hnd, _⟩ := cleaned_elems h hp
    rw [List.dedup_eq_self.mpr hnd]
    rfl
  · intro p₁ hp₁ p₂ hp₂ hfs
    obtain ⟨_, hnd₁, _⟩ := cleaned_elems h hp₁
    obtain ⟨_, hnd₂, _⟩ := cleaned_elems h hp₂
    show hyphenJoin (sortStrings (elemList p₁.comp_obj)) =
      hyphenJoin (sortStrings (elemList p₂.comp_obj))
    rw [sortStrings_eq_of_toFinset hnd₁ hnd₂ hfs]

theorem system_label_witness :
    cleanedData sampleRaw = some sampleDS ∧
    ((∀ p ∈ sampleDS, systemLabel p = hyphenJoin (sortStrings (elemList p.comp_obj).dedup)) ∧
      (∀ p₁ ∈ sampleDS, ∀ p₂ ∈ sampleDS,
        (elemList p₁.comp_obj).toFinset = (elemList p₂.comp_obj).toFinset →
        systemLabel p₁ = systemLabel p₂)) :=
  ⟨by decide, system_label_canonical sampleRaw sampleDS (by decide)⟩

/-- C4: after sorting ascending by `delta_e` and dropping later
duplicates of the reduced formula, the cleaned collection has at most one
row per reduced formula; each retained row comes from the parsed
collection and has minimal `delta_e` among the rows sharing its formula;
and every formula of the parsed collection is still represented. -/
theorem dedup_lowest_energy (raw : List RawRow) (l ds : List PEntry)
    (hpa : parseAll ((raw.map coerceRow).filter deltaInRange) = some l)
    (h : cleanedData raw = some ds) :
    (ds.map prettyComp).Nodup ∧
    (∀ p ∈ ds, p ∈ l ∧ ∀ p2 ∈ l, prettyComp p2 = prettyComp p → deLe p p2) ∧
    (∀ p2 ∈ l, ∃ p ∈ ds, prettyComp p = prettyComp p2) := by
  obtain ⟨l0, hl0, hds⟩ := cleanedData_inv h
  rw [hpa] at hl0
  have hll : l0 = l := (Option.some_inj.mp hl0).symm
  subst hll
  have hsorted : List.Sorted deLe (sortByDelta l0) := List.sorted_insertionSort deLe l0
  refine ⟨?_, ?_, ?_⟩
  · rw [hds]
    exact dropDupKeyF_keys_nodup prettyComp _ _
  · intro p hp
    rw [hds] at hp
    have hpsort : p ∈ sortByDelta l0 := (dropDupKeyF_sublist prettyComp _ _).mem hp
    refine ⟨(List.perm_insertionSort deLe l0).mem_iff.mp hpsort, ?_⟩
    intro p2 hp2 hkey
    exact dropDupKeyF_min prettyComp (fun a => le_refl (dKey a.delta_e)) _ _
      hsorted p hp p2 ((List.perm_insertionSort deLe l0).mem_iff.mpr hp2) hkey
  · intro p2 hp2
    have hp2s : p2 ∈ sortByDelta l0 := (List.perm_insertionSort deLe l0).mem_iff.mpr hp2
    obtain ⟨e, he, hke⟩ := dropDupKeyF_complete prettyComp _ _ le_rfl p2 hp2s
    exact ⟨e, hds ▸ he, hke⟩

theorem dedup_lowest_energy_witness :
    parseAll ((sampleRaw.map coerceRow).filter deltaInRange) = some sampleParsed ∧
    cleanedData sampleRaw = some sampleDS ∧
    ((sampleDS.map prettyComp).Nodup ∧
      (∀ p ∈ sampleDS, p ∈ sampleParsed ∧
        ∀ p2 ∈ sampleParsed, prettyComp p2 = prettyComp p → deLe p p2) ∧
      (∀ p2 ∈ sampleParsed, ∃ p ∈ sampleDS, prettyComp p = prettyComp p2)) :=
  ⟨by decide, by decide,
    dedup_lowest_energy sampleRaw sampleParsed sampleDS (by decide) (by decide)⟩

/-- C5: for both filters, the test set and the derived train set are
disjoint, together they cover the cleaned collection exactly, and the
train set is precisely the rows whose index is not a test-set index
(set difference on row identity). -/
theorem split_partition (raw : List RawRow) (ds : List PEntry)
    (E P : List String) (h : cleanedData raw = some ds)
    (hn : (raw.map RawRow.idx).Nodup) :
    ((∀ p, ¬ (p ∈ getTestDataQuat E ds ∧ p ∈ trainSet ds (getTestDataQuat E ds))) ∧
      (∀ p, p ∈ ds ↔ p ∈ getTestDataQuat E ds ∨ p ∈ trainSet ds (getTestDataQuat E ds)) ∧
      (∀ p, p ∈ trainSet ds (getTestDataQuat E ds) ↔
        p ∈ ds ∧ p.idx ∉ (getTestDataQuat E ds).map (fun t => t.idx))) ∧
    ((∀ p, ¬ (p ∈ getTestDataPair P ds ∧ p ∈ trainSet ds (getTestDataPair P ds))) ∧
      (∀ p, p ∈ ds ↔ p ∈ getTestDataPair P ds ∨ p ∈ trainSet ds (getTestDataPair P ds)) ∧
      (∀ p, p ∈ trainSet ds (getTestDataPair P ds) ↔
        p ∈ ds ∧ p.idx ∉ (getTestDataPair P ds).map (fun t => t.idx))) := by
  have hidx := cleaned_idx_nodup hn h
  have hsubq : ∀ p ∈ getTestDataQuat E ds, p ∈ ds := fun p hp => (List.mem_filter.mp hp).1
  have hsubp : ∀ p ∈ getTestDataPair P ds, p ∈ ds := fun p hp => (List.mem_filter.mp hp).1
  exact ⟨⟨test_train_disjoint, test_train_union hidx hsubq, fun _ => trainSet_mem⟩,
    ⟨test_train_disjoint, test_train_union hidx hsubp, fun _ => trainSet_mem⟩⟩

theorem split_partition_witness :
    cleanedData sampleRaw = some sampleDS ∧ (sampleRaw.map RawRow.idx).Nodup ∧
    (((∀ p, ¬ (p ∈ getTestDataQuat ["Na", "Cl"] sampleDS ∧
          p ∈ trainSet sampleDS (getTestDataQuat ["Na", "Cl"] sampleDS))) ∧
      (∀ p, p ∈ sampleDS ↔ p ∈ getTestDataQuat ["Na", "Cl"] sampleDS ∨
          p ∈ trainSet sampleDS (getTestDataQuat ["Na", "Cl"] sampleDS)) ∧
      (∀ p, p ∈ trainSet sampleDS (getTestDataQuat ["Na", "Cl"] sampleDS) ↔
        p ∈ sampleDS ∧ p.idx ∉ (getTestDataQuat ["Na", "Cl"] sampleDS).map (fun t => t.idx))) ∧
    ((∀ p, ¬ (p ∈ getTestDataPair ["Ti", "O"] sampleDS ∧
          p ∈ trainSet sampleDS (getTestDataPair ["Ti", "O"] sampleDS))) ∧
      (∀ p, p ∈ sampleDS ↔ p ∈ getTestDataPair ["Ti", "O"] sampleDS ∨
          p ∈ trainSet sampleDS (getTestDataPair ["Ti", "O"] sampleDS)) ∧
      (∀ p, p ∈ trainSet sampleDS (getTestDataPair ["Ti", "O"] sampleDS) ↔
        p ∈ sampleDS ∧ p.idx ∉ (getTestDataPair ["Ti", "O"] sampleDS).map (fun t => t.idx)))) :=
  ⟨by decide, by decide,
    split_partition sampleRaw sampleDS ["Na", "Cl"] ["Ti", "O"] (by decide) (by decide)⟩

/-- C6: every cleaned row's formation enthalpy is present and lies in
the open interval (-20, 5); out-of-range rows are silently absent from
the filtered table rather than errors. -/
theorem delta_range_claim (raw : List RawRow) (ds : List PEntry)
    (h : cleanedData raw = some ds) :
    (∀ p ∈ ds, ∃ q, p.delta_e = some q ∧ -20 < q ∧ q < 5) ∧
    (∀ r ∈ raw, deltaInRange (coerceRow r) = false →
      coerceRow r ∉ (raw.map coerceRow).filter deltaInRange) := by
  refine ⟨fun p hp => cleaned_delta h hp, ?_⟩
  intro r _ hfalse hmem
  have htrue := (List.mem_filter.mp hmem).2
  rw [hfalse] at htrue
  exact absurd htrue (by simp)

theorem delta_range_witness :
    cleanedData sampleRaw = some sampleDS ∧
    ((∀ p ∈ sampleDS, ∃ q, p.delta_e = some q ∧ -20 < q ∧ q < 5) ∧
      (∀ r ∈ sampleRaw, deltaInRange (coerceRow r) = false →
        coerceRow r ∉ (sampleRaw.map coerceRow).filter deltaInRange)) :=
  ⟨by decide, delta_range_claim sampleRaw sampleDS (by decide)⟩

/-- C7: writing any collection with the exporter (header line, then per
row the raw composition and `delta_e`, space-separated, in collection
order) and re-reading the file reproduces exactly the (composition,
delta_e) pairs in order — under the spec's latent assumptions that
composition strings contain no separator characters and `delta_e` is
present. -/
theorem exporter_round_trip (rows : List PEntry)
    (hok : ∀ e ∈ rows, ' ' ∉ e.comp.data ∧ '\n' ∉ e.comp.data ∧ (e.delta_e).isSome = true) :
    readMagpie (saveMagpie rows) =
      some (rows.map (fun e => (e.comp, e.delta_e.getD 0))) := by
  apply readMagpie_saveMagpie
  intro e he
  obtain ⟨h1, h2, h3⟩ := hok e he
  refine ⟨h1, h2, ?_⟩
  cases hq : e.delta_e with
  | none => rw [hq] at h3; simp at h3
  | some q => exact ⟨q, rfl⟩

theorem exporter_round_trip_witness :
    (∀ e ∈ sampleDS, ' ' ∉ e.comp.data ∧ '\n' ∉ e.comp.data ∧ (e.delta_e).isSome = true) ∧
    readMagpie (saveMagpie sampleDS) =
      some (sampleDS.map (fun e => (e.comp, e.delta_e.getD 0))) :=
  ⟨by decide, exporter_round_trip sampleDS (by decide)⟩

/-- C8: for every nonempty target list of elements, the label set built
by the source's n-fold Cartesian-product enumeration equals the label set
built by directly enumerating every non-empty subset of the target, and
swapping the enumeration does not change the quaternary filter's
output. -/
theorem product_enum_refines_powerset (E : List String) (ds : List PEntry)
    (hEne : E ≠ []) :
    sourceSystems E = specSystems E ∧
    getTestDataQuat E ds = ds.filter (fun e => decide (systemLabel e ∈ specSystems E)) := by
  refine ⟨sourceSystems_eq_specSystems hEne, ?_⟩
  unfold getTestDataQuat
  rw [sourceSystems_eq_specSystems hEne]

theorem product_enum_witness :
    ((["Na", "Fe", "O"] : List String) ≠ []) ∧
    (sourceSystems ["Na", "Fe", "O"] = specSystems ["Na", "Fe", "O"] ∧
      getTestDataQuat ["Na", "Fe", "O"] sampleDS =
        sampleDS.filter (fun e => decide (systemLabel e ∈ specSystems ["Na", "Fe", "O"]))) :=
  ⟨by decide, product_enum_refines_powerset ["Na", "Fe", "O"] sampleDS (by decide)⟩

theorem trainSet_nil (ds : List PEntry) : trainSet ds [] = ds := by
  unfold trainSet
  apply List.filter_eq_self.mpr
  intro a _
  simp

/-- C9: a target element absent from every cleaned row is not an error:
a quaternary target all of whose elements are absent selects nothing and
its train set is the whole cleaned collection, and a pairwise target with
any absent element likewise selects nothing. -/
theorem absent_element_claim (raw : List RawRow) (ds : List PEntry)
    (E P : List String) (h : cleanedData raw = some ds)
    (hE : ∀ s ∈ E, validSym s)
    (hqabs : ∀ x ∈ E, ∀ p ∈ ds, x ∉ elemList p.comp_obj)
    (hpabs : ∃ x ∈ P, ∀ p ∈ ds, x ∉ elemList p.comp_obj) :
    getTestDataQuat E ds = [] ∧ trainSet ds (getTestDataQuat E ds) = ds ∧
    getTestDataPair P ds = [] ∧ trainSet ds (getTestDataPair P ds) = ds := by
  have hq : getTestDataQuat E ds = [] := by
    rw [List.eq_nil_iff_forall_not_mem]
    intro p hp
    obtain ⟨hpds, hnem, hsub⟩ := quat_sound h hE hp
    obtain ⟨y, hy⟩ := Finset.nonempty_iff_ne_empty.mpr hnem
    exact hqabs y (List.mem_toFinset.mp (hsub hy)) p hpds (List.mem_toFinset.mp hy)
  have hptest : getTestDataPair P ds = [] := by
    rw [List.eq_nil_iff_forall_not_mem]
    intro p hp
    obtain ⟨x, hxP, hxabs⟩ := hpabs
    obtain ⟨hpds, hall⟩ := (pair_mem_iff h).mp hp
    exact hxabs p hpds (hall x hxP)
  refine ⟨hq, ?_, hptest, ?_⟩
  · rw [hq]
    exact trainSet_nil ds
  · rw [hptest]
    exact trainSet_nil ds

theorem absent_element_witness :
    cleanedData sampleRaw = some sampleDS ∧ (∀ s ∈ ["Xx"], validSym s) ∧
    (∀ x ∈ ["Xx"], ∀ p ∈ sampleDS, x ∉ elemList p.comp_obj) ∧
    (∃ x ∈ ["Ti", "O"], ∀ p ∈ sampleDS, x ∉ elemList p.comp_obj) ∧
    (getTestDataQuat ["Xx"] sampleDS = [] ∧
      trainSet sampleDS (getTestDataQuat ["Xx"] sampleDS) = sampleDS ∧
      getTestDataPair ["Ti", "O"] sampleDS = [] ∧
      trainSet sampleDS (getTestDataPair ["Ti", "O"] sampleDS) = sampleDS) :=
  ⟨by decide, by decide, by decide, by decide,
    absent_element_claim sampleRaw sampleDS ["Xx"] ["Ti", "O"]
      (by decide) (by decide) (by decide) (by decide)⟩

/-- C10: a `delta_e` cell that fails numeric parsing is coerced to the
missing value, on which both range comparisons are false, so the row is
dropped; every cleaned row therefore has a present `delta_e`. -/
theorem missing_delta_claim (raw : List RawRow) (ds : List PEntry)
    (h : cleanedData raw = some ds) :
    (∀ r : RawRow, toNumeric r.delta_e = none → deltaInRange (coerceRow r) = false) ∧
    (∀ r : RawRow, toNumeric r.delta_e = none →
      coerceRow r ∉ (raw.map coerceRow).filter deltaInRange) ∧
    (∀ p ∈ ds, (p.delta_e).isSome = true) := by
  have hfalse : ∀ r : RawRow, toNumeric r.delta_e = none →
      deltaInRange (coerceRow r) = false := by
    intro r hr
    unfold deltaInRange
    have hd : (coerceRow r).delta_e = toNumeric r.delta_e := rfl
    rw [hd, hr]
  refine ⟨hfalse, ?_, ?_⟩
  · intro r hr hmem
    have htrue := (List.mem_filter.mp hmem).2
    rw [hfalse r hr] at htrue
    exact absurd htrue (by simp)
  · intro p hp
    obtain ⟨q, hq, _, _⟩ := cleaned_delta h hp
    rw [hq]
    rfl

theorem missing_delta_witness :
    cleanedData sampleRaw = some sampleDS ∧
    ((∀ r : RawRow, toNumeric r.delta_e = none → deltaInRange (coerceRow r) = false) ∧
      (∀ r : RawRow, toNumeric r.delta_e = none →
        coerceRow r ∉ (sampleRaw.map coerceRow).filter deltaInRange) ∧
      (∀ p ∈ sampleDS, (p.delta_e).isSome = true)) :=
  ⟨by decide, missing_delta_claim sampleRaw sampleDS (by decide)⟩

end OqmdSplit
